import Mathlib

/-!
Shallow embedding of `src/rhythmic_dictation.py`.

The program's randomness (`random.choice`) is modelled by an explicit
choice stream `stream : Nat → Nat`: the k-th call to `random.choice(seq)`
returns `seq[stream k % seq.length]`.  Quantifying over `stream` quantifies
over every possible sequence of random choices.  Python's machine-level
integers are arbitrary precision, and every quantity manipulated here
(durations, sums, counters) is non-negative in all reachable states, so
they are embedded as `Nat`.
-/

/-- Outcome of a call to `gen_rhythm` (lines 63-104 of the source):
either a normal return of the `notes` list, the `ValueError` raised when
the iteration counter exceeds `iter_max` (line 93), an `IndexError` from
`notes.pop()` on an empty list (line 97, never reached in fact), or
divergence of the inner fill loop (lines 99-102, possible only if a
non-positive note value lets the running sum stall). -/
inductive GenResult where
  | ok (notes : List Nat)
  | valueError
  | indexError
  | diverge
deriving DecidableEq

/-- `random.choice(note_values)`, reading the k-th entry of the choice
stream.  For a non-empty list the default value 0 of `getD` is never
used.  (On an empty list Python raises; the claims only ever use
non-empty palettes.) -/
def choiceAt (note_values : List Nat) (stream : Nat → Nat) (k : Nat) : Nat :=
  note_values.getD (stream k % note_values.length) 0

/-- The inner fill loop of `gen_rhythm` (source lines 99-102):
`while current_sixteenths < sixteenths: note_val = random.choice(note_values);
notes.append(note_val); current_sixteenths += note_val`.
The `notes` stack is kept in reverse (head = most recently appended).
`fuel` bounds the number of iterations; exhausting it models divergence.
`gen_rhythm` supplies fuel `sixteenths + 1`, which is proved sufficient
whenever every palette value is positive, so for the positive palettes of
the claims the `none` case coincides exactly with Python divergence
(which cannot happen there).  Returns the new stream position, stack and
running sum. -/
def innerFill (note_values : List Nat) (stream : Nat → Nat) (sixteenths : Nat) :
    Nat → Nat → List Nat → Nat → Option (Nat × List Nat × Nat)
  | 0, k, notes, current =>
      if current < sixteenths then none else some (k, notes, current)
  | fuel + 1, k, notes, current =>
      if current < sixteenths then
        innerFill note_values stream sixteenths fuel (k + 1)
          (choiceAt note_values stream k :: notes)
          (current + choiceAt note_values stream k)
      else some (k, notes, current)

/-- The outer loop of `gen_rhythm` (source lines 90-102).  `r` is the
number of loop-body executions still allowed before `iter_counter`
exceeds `iter_max = 500`: the loop guard `current_sixteenths != sixteenths`
is tested first; if the body would run with no budget left, the
`ValueError` of line 93 is raised.  The body pops the most recent note
(line 97) and runs the inner fill loop. -/
def gen_loop (note_values : List Nat) (stream : Nat → Nat) (sixteenths : Nat) :
    Nat → Nat → List Nat → Nat → GenResult
  | 0, _, notes, current =>
      if current = sixteenths then .ok notes else .valueError
  | r + 1, k, notes, current =>
      if current = sixteenths then .ok notes
      else
        match notes with
        | [] => .indexError
        | top :: rest =>
          match innerFill note_values stream sixteenths (sixteenths + 1) k rest
              (current - top) with
          | none => .diverge
          | some (k2, notes2, current2) =>
              gen_loop note_values stream sixteenths r k2 notes2 current2

/-- `gen_rhythm(beats, note_values)` (source lines 63-104): the state is
initialised to `notes = [0]`, `sixteenths = beats * 4`,
`current_sixteenths = 0`, `iter_max = 500`; on normal exit the `notes`
list is returned (the internal stack is reversed back to Python order). -/
def gen_rhythm (beats : Nat) (note_values : List Nat) (stream : Nat → Nat) :
    GenResult :=
  match gen_loop note_values stream (beats * 4) 500 0 [0] 0 with
  | .ok notes => .ok notes.reverse
  | r => r

/-- `target` is reachable as a sum of (zero or more) palette elements. -/
def Reachable (palette : List Nat) (target : Nat) : Prop :=
  ∃ l : List Nat, (∀ x ∈ l, x ∈ palette) ∧ l.sum = target

/-- Index of the first occurrence of `x` in a list (0 on a list not
containing `x`); used only to build concrete choice streams that make
`random.choice` produce a prescribed value. -/
def idxOf : List Nat → Nat → Nat
  | [], _ => 0
  | a :: t, x => if a = x then 0 else idxOf t x + 1

/-- `sixteenths_to_rests` (source lines 107-125): the fixed table
`{12: (4, 8), 6: (2, 4)}`, identity `(sixteenths,)` otherwise. -/
def sixteenths_to_rests (sixteenths : Nat) : List Nat :=
  if sixteenths = 12 then [4, 8]
  else if sixteenths = 6 then [2, 4]
  else [sixteenths]

/-- `sixteenths_to_lilypond` (source lines 128-151): the fixed dictionary
lookup; a key outside the table raises `KeyError`, modelled as `none`. -/
def sixteenths_to_lilypond (sixteenths : Nat) : Option String :=
  if sixteenths = 16 then some "1"
  else if sixteenths = 12 then some "2."
  else if sixteenths = 8 then some "2"
  else if sixteenths = 6 then some "4."
  else if sixteenths = 4 then some "4"
  else if sixteenths = 2 then some "8"
  else if sixteenths = 1 then some "16"
  else none

/-- The note-generation loop of `practice_round` (source lines 381-383):
`for _ in range(measures): notes.extend(gen_rhythm(beats=bpmeasure,
note_values=args.note_values))`.  Measure `m` draws from its own choice
stream `streams m` (the Python calls share one RNG but no other state, so
the draws of distinct measures are independent).  A `ValueError` from any
measure propagates, modelled as `none`. -/
def build_notes (streams : Nat → Nat → Nat) (note_values : List Nat)
    (bpmeasure : Nat) : Nat → Option (List Nat)
  | 0 => some []
  | m + 1 =>
      match build_notes streams note_values bpmeasure m,
          gen_rhythm bpmeasure note_values (streams m) with
      | some acc, .ok l => some (acc ++ l)
      | _, _ => none

/-- The rest-selection loop of `practice_round` (source lines 386-391):
`for _ in range(args.num_rests): rest_index = random.choice(non_rests);
rests.add(rest_index); non_rests.remove(rest_index)`.
`random.choice` on an empty `non_rests` raises `IndexError`, modelled as
`none`.  The first argument of the recursion is the number of loop
iterations left (`args.num_rests` at the call site). -/
def add_rests (stream : Nat → Nat) : Nat → Nat → List Nat → List Nat →
    Option (List Nat)
  | 0, _, _, rests => some rests
  | n + 1, k, non_rests, rests =>
      if non_rests = [] then none
      else
        add_rests stream n (k + 1)
          (non_rests.erase (non_rests.getD (stream k % non_rests.length) 0))
          (non_rests.getD (stream k % non_rests.length) 0 :: rests)

/-- One rest position's tokens (source lines 396-398): each value of
`sixteenths_to_rests(note)` is rendered as `"r" + sixteenths_to_lilypond(val)`;
a `KeyError` propagates, modelled as `none`. -/
def rest_syms : List Nat → Option (List String)
  | [] => some []
  | v :: vs =>
      match sixteenths_to_lilypond v, rest_syms vs with
      | some s, some ss => some (("r" ++ s) :: ss)
      | _, _ => none

/-- The rendering loop of `practice_round` (source lines 393-400):
position `i` yields rest tokens when `i ∈ rests`, otherwise the single
token `"a" + sixteenths_to_lilypond(note)`. -/
def render_tokens (rests : List Nat) : Nat → List Nat → Option (List String)
  | _, [] => some []
  | i, note :: more =>
      match (if i ∈ rests then rest_syms (sixteenths_to_rests note)
             else (sixteenths_to_lilypond note).map (fun s => ["a" ++ s])),
          render_tokens rests (i + 1) more with
      | some t, some ts => some (t ++ ts)
      | _, _ => none

/-! ### Lemmas about the generator loops -/

lemma choiceAt_mem (note_values : List Nat) (stream : Nat → Nat) (k : Nat)
    (h : note_values ≠ []) : choiceAt note_values stream k ∈ note_values := by
  have hlen : 0 < note_values.length := List.length_pos.2 h
  have hlt : stream k % note_values.length < note_values.length :=
    Nat.mod_lt _ hlen
  rw [choiceAt, List.getD_eq_getElem _ _ hlt]
  exact List.getElem_mem hlt

lemma innerFill_spec (note_values : List Nat) (stream : Nat → Nat)
    (sixteenths : Nat) (hnv : note_values ≠ [])
    (hpos : ∀ v ∈ note_values, 0 < v) :
    ∀ fuel k notes current, sixteenths ≤ current + fuel →
      ∃ pushed k2,
        innerFill note_values stream sixteenths fuel k notes current
          = some (k2, pushed ++ notes, current + pushed.sum)
        ∧ (∀ x ∈ pushed, x ∈ note_values)
        ∧ sixteenths ≤ current + pushed.sum := by
  intro fuel
  induction fuel with
  | zero =>
    intro k notes current hle
    have hnlt : ¬ current < sixteenths := by omega
    exact ⟨[], k, by simp [innerFill, hnlt], by simp, by simpa using hle⟩
  | succ fuel ih =>
    intro k notes current hle
    by_cases hlt : current < sixteenths
    · have hvmem : choiceAt note_values stream k ∈ note_values :=
        choiceAt_mem _ _ _ hnv
      have hvpos : 0 < choiceAt note_values stream k := hpos _ hvmem
      obtain ⟨pushed, k2, heq, hmem, hsum⟩ :=
        ih (k + 1) (choiceAt note_values stream k :: notes)
          (current + choiceAt note_values stream k) (by omega)
      refine ⟨pushed ++ [choiceAt note_values stream k], k2, ?_, ?_, ?_⟩
      · rw [innerFill, if_pos hlt, heq]
        have h1 : pushed ++ choiceAt note_values stream k :: notes
            = (pushed ++ [choiceAt note_values stream k]) ++ notes := by simp
        have h2 : current + choiceAt note_values stream k + pushed.sum
            = current + (pushed ++ [choiceAt note_values stream k]).sum := by
          simp [List.sum_append]; omega
        rw [h1, h2]
      · intro x hx
        rcases List.mem_append.1 hx with hx | hx
        · exact hmem x hx
        · simp at hx; subst hx; exact hvmem
      · simp [List.sum_append]; omega
    · have hle2 : sixteenths ≤ current := by omega
      exact ⟨[], k, by simp [innerFill, hlt], by simp, by simpa using hle2⟩

lemma gen_loop_done (note_values : List Nat) (stream : Nat → Nat)
    (sixteenths r k : Nat) (notes : List Nat) (current : Nat)
    (h : current = sixteenths) :
    gen_loop note_values stream sixteenths r k notes current = .ok notes := by
  cases r <;> simp [gen_loop, h]

lemma gen_loop_zero_ne (note_values : List Nat) (stream : Nat → Nat)
    (sixteenths k : Nat) (notes : List Nat) (current : Nat)
    (h : current ≠ sixteenths) :
    gen_loop note_values stream sixteenths 0 k notes current = .valueError := by
  simp [gen_loop, h]

lemma gen_loop_cons (note_values : List Nat) (stream : Nat → Nat)
    (sixteenths r k top : Nat) (rest : List Nat) (current : Nat)
    (h : current ≠ sixteenths) :
    gen_loop note_values stream sixteenths (r + 1) k (top :: rest) current
      = match innerFill note_values stream sixteenths (sixteenths + 1) k rest
            (current - top) with
        | none => .diverge
        | some (k2, notes2, current2) =>
            gen_loop note_values stream sixteenths r k2 notes2 current2 := by
  simp [gen_loop, h]

lemma gen_loop_spec (note_values : List Nat) (stream : Nat → Nat)
    (sixteenths : Nat) (hnv : note_values ≠ [])
    (hpos : ∀ v ∈ note_values, 0 < v) :
    ∀ r k notes current, current = notes.sum →
      (∀ x ∈ notes, x ∈ note_values) → sixteenths ≤ current →
      (∃ l, gen_loop note_values stream sixteenths r k notes current = .ok l
          ∧ l.sum = sixteenths ∧ ∀ x ∈ l, x ∈ note_values)
      ∨ gen_loop note_values stream sixteenths r k notes current
          = .valueError := by
  intro r
  induction r with
  | zero =>
    intro k notes current hcur hmem hle
    by_cases h : current = sixteenths
    · exact Or.inl ⟨notes, gen_loop_done _ _ _ _ _ _ _ h, by omega, hmem⟩
    · exact Or.inr (gen_loop_zero_ne _ _ _ _ _ _ h)
  | succ r ih =>
    intro k notes current hcur hmem hle
    by_cases h : current = sixteenths
    · exact Or.inl ⟨notes, gen_loop_done _ _ _ _ _ _ _ h, by omega, hmem⟩
    · have hgt : sixteenths < current := lt_of_le_of_ne hle (Ne.symm h)
      have hne : notes ≠ [] := by
        intro hnil
        rw [hnil] at hcur
        simp at hcur
        omega
      obtain ⟨top, rest, rfl⟩ := List.exists_cons_of_ne_nil hne
      have hcur2 : current - top = rest.sum := by
        simp [List.sum_cons] at hcur
        omega
      obtain ⟨pushed, k2, heq, hpmem, hpsum⟩ :=
        innerFill_spec note_values stream sixteenths hnv hpos
          (sixteenths + 1) k rest (current - top) (by omega)
      have hstep : gen_loop note_values stream sixteenths (r + 1) k
            (top :: rest) current
          = gen_loop note_values stream sixteenths r k2 (pushed ++ rest)
              (current - top + pushed.sum) := by
        rw [gen_loop_cons _ _ _ _ _ _ _ _ h, heq]
      rw [hstep]
      apply ih k2 (pushed ++ rest) (current - top + pushed.sum)
      · have hsa : (pushed ++ rest).sum = pushed.sum + rest.sum :=
          List.sum_append
        omega
      · intro x hx
        rcases List.mem_append.1 hx with hx | hx
        · exact hpmem x hx
        · exact hmem x (List.mem_cons_of_mem _ hx)
      · exact hpsum

lemma gen_rhythm_spec (beats : Nat) (note_values : List Nat)
    (stream : Nat → Nat) (hnv : note_values ≠ [])
    (hpos : ∀ v ∈ note_values, 0 < v) :
    (∃ l, gen_rhythm beats note_values stream = .ok l ∧ l.sum = beats * 4
        ∧ (0 < beats → ∀ x ∈ l, x ∈ note_values))
    ∨ gen_rhythm beats note_values stream = .valueError := by
  by_cases hb : beats = 0
  · subst hb
    exact Or.inl ⟨[0], rfl, rfl, fun h => absurd h (by omega)⟩
  · have hb0 : 0 < beats := Nat.pos_of_ne_zero hb
    have hne : (0 : Nat) ≠ beats * 4 := by omega
    obtain ⟨pushed, k2, heq, hpmem, hpsum⟩ :=
      innerFill_spec note_values stream (beats * 4) hnv hpos
        (beats * 4 + 1) 0 [] 0 (by omega)
    have heq2 : innerFill note_values stream (beats * 4) (beats * 4 + 1) 0 []
        (0 - 0) = some (k2, pushed, pushed.sum) := by
      simpa using heq
    have hstep : gen_loop note_values stream (beats * 4) 500 0 [0] 0
        = gen_loop note_values stream (beats * 4) 499 k2 pushed pushed.sum := by
      have h500 : (500 : Nat) = 499 + 1 := rfl
      rw [h500, gen_loop_cons _ _ _ _ _ _ _ _ hne, heq2]
    unfold gen_rhythm
    rw [hstep]
    rcases gen_loop_spec note_values stream (beats * 4) hnv hpos 499 k2 pushed
        pushed.sum rfl hpmem (by simpa using hpsum) with ⟨l, hl, hsum, hmem⟩ | hv
    · rw [hl]
      exact Or.inl ⟨l.reverse, rfl, by rw [List.sum_reverse]; exact hsum,
        fun _ x hx => hmem x (List.mem_reverse.1 hx)⟩
    · rw [hv]
      exact Or.inr rfl

lemma idxOf_lt_length {l : List Nat} {x : Nat} (h : x ∈ l) :
    idxOf l x < l.length := by
  induction l with
  | nil => cases h
  | cons a t ih =>
    by_cases hax : a = x
    · simp [idxOf, hax]
    · have hxt : x ∈ t := by
        rcases List.mem_cons.1 h with h1 | h1
        · exact absurd h1.symm hax
        · exact h1
      have := ih hxt
      simp [idxOf, hax]
      omega

lemma getD_idxOf {l : List Nat} {x : Nat} (h : x ∈ l) :
    l.getD (idxOf l x) 0 = x := by
  induction l with
  | nil => cases h
  | cons a t ih =>
    by_cases hax : a = x
    · simp [idxOf, hax]
    · have hxt : x ∈ t := by
        rcases List.mem_cons.1 h with h1 | h1
        · exact absurd h1.symm hax
        · exact h1
      simp only [idxOf, if_neg hax, List.getD_cons_succ]
      exact ih hxt

lemma getD_mem {l : List Nat} {i : Nat} (h : i < l.length) : l.getD i 0 ∈ l := by
  rw [List.getD_eq_getElem _ _ h]
  exact List.getElem_mem h

lemma length_le_sum {l : List Nat} (h : ∀ x ∈ l, 0 < x) :
    l.length ≤ l.sum := by
  induction l with
  | nil => simp
  | cons a t ih =>
    have ha := h a (by simp)
    have ht := ih fun x hx => h x (List.mem_cons_of_mem _ hx)
    simp [List.sum_cons]
    omega

lemma innerFill_exact (note_values : List Nat) (stream : Nat → Nat)
    (sixteenths : Nat) :
    ∀ (l : List Nat) (k : Nat) (notes : List Nat) (current fuel : Nat),
      (∀ i, i < l.length → choiceAt note_values stream (k + i) = l.getD i 0) →
      (∀ x ∈ l, 0 < x) →
      current + l.sum = sixteenths → l.length ≤ fuel →
      (current < sixteenths ∨ l = []) →
      innerFill note_values stream sixteenths fuel k notes current
        = some (k + l.length, l.reverse ++ notes, sixteenths) := by
  intro l
  induction l with
  | nil =>
    intro k notes current fuel _ _ hsum _ _
    have hcs : current = sixteenths := by simpa using hsum
    cases fuel <;> simp [innerFill, hcs]
  | cons a t ih =>
    intro k notes current fuel hstream hpos hsum hfuel _
    have ha : 0 < a := hpos a (by simp)
    have hsc : (a :: t).sum = a + t.sum := by simp
    have hlt : current < sixteenths := by omega
    obtain ⟨fuel2, rfl⟩ : ∃ f, fuel = f + 1 := by
      cases fuel
      · simp at hfuel
      · exact ⟨_, rfl⟩
    have hchoice : choiceAt note_values stream k = a := by
      have := hstream 0 (by simp)
      simpa using this
    have hstream2 : ∀ i, i < t.length →
        choiceAt note_values stream (k + 1 + i) = t.getD i 0 := by
      intro i hi
      have h1 := hstream (i + 1) (by simp; omega)
      rw [show k + 1 + i = k + (i + 1) by omega]
      simpa using h1
    have hentry2 : current + a < sixteenths ∨ t = [] := by
      cases t with
      | nil => exact Or.inr rfl
      | cons b t2 =>
        refine Or.inl ?_
        have hb : 0 < b := hpos b (by simp)
        have hs2 : (a :: b :: t2).sum = a + b + t2.sum := by
          simp [List.sum_cons]
          omega
        omega
    have hrec := ih (k + 1) (a :: notes) (current + a) fuel2 hstream2
      (fun x hx => hpos x (List.mem_cons_of_mem _ hx))
      (by omega) (by simp at hfuel; omega) hentry2
    rw [innerFill, if_pos hlt, hchoice, hrec]
    have h1 : k + 1 + t.length = k + (a :: t).length := by simp; omega
    have h2 : t.reverse ++ a :: notes = (a :: t).reverse ++ notes := by simp
    rw [h1, h2]

lemma gen_rhythm_exists_ok (beats : Nat) (note_values : List Nat)
    (hb : 0 < beats) (hnv : note_values ≠ [])
    (hpos : ∀ v ∈ note_values, 0 < v)
    (hreach : Reachable note_values (beats * 4)) :
    ∃ stream l, gen_rhythm beats note_values stream = .ok l
      ∧ l.sum = beats * 4 ∧ ∀ x ∈ l, x ∈ note_values := by
  obtain ⟨w, hwmem, hwsum⟩ := hreach
  have hwpos : ∀ x ∈ w, 0 < x := fun x hx => hpos x (hwmem x hx)
  refine ⟨fun i => idxOf note_values (w.getD i 0), w, ?_, hwsum, hwmem⟩
  have hstream : ∀ i, i < w.length →
      choiceAt note_values (fun i => idxOf note_values (w.getD i 0)) (0 + i)
        = w.getD i 0 := by
    intro i hi
    have hmem : w.getD i 0 ∈ note_values := hwmem _ (getD_mem hi)
    have hidx : idxOf note_values (w.getD i 0) < note_values.length :=
      idxOf_lt_length hmem
    simp only [choiceAt, Nat.zero_add]
    rw [Nat.mod_eq_of_lt hidx, getD_idxOf hmem]
  have hlen : w.length ≤ beats * 4 := by
    have := length_le_sum hwpos
    omega
  have hfill := innerFill_exact note_values
      (fun i => idxOf note_values (w.getD i 0)) (beats * 4) w 0 [] 0
      (beats * 4 + 1) hstream hwpos (by omega) (by omega)
      (Or.inl (by omega))
  have hne0 : (0 : Nat) ≠ beats * 4 := by omega
  have hstep : gen_loop note_values (fun i => idxOf note_values (w.getD i 0))
        (beats * 4) 500 0 [0] 0
      = gen_loop note_values (fun i => idxOf note_values (w.getD i 0))
          (beats * 4) 499 (0 + w.length) (w.reverse ++ []) (beats * 4) := by
    rw [show (500 : Nat) = 499 + 1 from rfl,
      gen_loop_cons _ _ _ _ _ _ _ _ hne0,
      show (0 : Nat) - 0 = 0 from rfl, hfill]
  rw [gen_rhythm, hstep, gen_loop_done _ _ _ _ _ _ _ rfl]
  simp

lemma sum_eq_mul_length_of_all_eq {l : List Nat} {c : Nat}
    (h : ∀ x ∈ l, x = c) : l.sum = c * l.length := by
  induction l with
  | nil => simp
  | cons a t ih =>
    have ha : a = c := h a (by simp)
    have ht := ih fun x hx => h x (List.mem_cons_of_mem _ hx)
    subst ha
    rw [List.sum_cons, ht, List.length_cons, Nat.mul_succ]
    omega

lemma not_reachable_three_four : ¬ Reachable [3] 4 := by
  rintro ⟨l, hmem, hsum⟩
  have h3 : ∀ x ∈ l, x = 3 := by
    intro x hx
    simpa using hmem x hx
  have := sum_eq_mul_length_of_all_eq h3
  omega

lemma gen_rhythm_ok_sum (beats : Nat) (note_values : List Nat)
    (stream : Nat → Nat) (l : List Nat) (hnv : note_values ≠ [])
    (hpos : ∀ v ∈ note_values, 0 < v)
    (h : gen_rhythm beats note_values stream = .ok l) : l.sum = beats * 4 := by
  rcases gen_rhythm_spec beats note_values stream hnv hpos with
      ⟨l2, hl2, hsum, _⟩ | hv
  · rw [h] at hl2
    injection hl2 with h2
    subst h2
    exact hsum
  · rw [h] at hv
    exact GenResult.noConfusion hv

lemma build_notes_sum (streams : Nat → Nat → Nat) (note_values : List Nat)
    (bpmeasure : Nat) (hnv : note_values ≠ [])
    (hpos : ∀ v ∈ note_values, 0 < v) :
    ∀ measures notes,
      build_notes streams note_values bpmeasure measures = some notes →
      notes.sum = measures * (bpmeasure * 4) := by
  intro measures
  induction measures with
  | zero =>
    intro notes h
    simp [build_notes] at h
    subst h
    simp
  | succ m ih =>
    intro notes h
    rw [build_notes] at h
    cases hb : build_notes streams note_values bpmeasure m with
    | none => rw [hb] at h; simp at h
    | some acc =>
      rw [hb] at h
      cases hg : gen_rhythm bpmeasure note_values (streams m) with
      | ok l =>
        rw [hg] at h
        simp at h
        have hs := gen_rhythm_ok_sum _ _ _ _ hnv hpos hg
        have ha := ih acc hb
        rw [← h, List.sum_append, Nat.succ_mul]
        omega
      | valueError => rw [hg] at h; simp at h
      | indexError => rw [hg] at h; simp at h
      | diverge => rw [hg] at h; simp at h

lemma build_notes_forward (streams : Nat → Nat → Nat) (note_values : List Nat)
    (bpmeasure : Nat) :
    ∀ measures notes,
      build_notes streams note_values bpmeasure measures = some notes →
      ∃ ls : List (List Nat), ls.length = measures ∧
        (∀ i, i < measures →
          gen_rhythm bpmeasure note_values (streams i) = .ok (ls.getD i [])) ∧
        notes = ls.join := by
  intro measures
  induction measures with
  | zero =>
    intro notes h
    simp [build_notes] at h
    subst h
    exact ⟨[], rfl, by omega, by simp⟩
  | succ m ih =>
    intro notes h
    rw [build_notes] at h
    cases hb : build_notes streams note_values bpmeasure m with
    | none => rw [hb] at h; simp at h
    | some acc =>
      rw [hb] at h
      cases hg : gen_rhythm bpmeasure note_values (streams m) with
      | ok l =>
        rw [hg] at h
        simp at h
        obtain ⟨ls, hlen, hall, hjoin⟩ := ih acc hb
        refine ⟨ls ++ [l], by simp [hlen], ?_, by simp [← h, hjoin]⟩
        intro i hi
        by_cases him : i < m
        · rw [List.getD_append _ _ _ _ (by omega)]
          exact hall i him
        · have hieq : i = m := by omega
          subst hieq
          rw [List.getD_append_right _ _ _ _ (by omega), hlen]
          simpa using hg
      | valueError => rw [hg] at h; simp at h
      | indexError => rw [hg] at h; simp at h
      | diverge => rw [hg] at h; simp at h

lemma build_notes_backward (streams : Nat → Nat → Nat) (note_values : List Nat)
    (bpmeasure : Nat) :
    ∀ measures (ls : List (List Nat)), ls.length = measures →
      (∀ i, i < measures →
        gen_rhythm bpmeasure note_values (streams i) = .ok (ls.getD i [])) →
      build_notes streams note_values bpmeasure measures = some ls.join := by
  intro measures
  induction measures with
  | zero =>
    intro ls hlen _
    have h0 : ls = [] := List.length_eq_zero.1 hlen
    subst h0
    simp [build_notes]
  | succ m ih =>
    intro ls hlen hall
    rcases List.eq_nil_or_concat ls with rfl | ⟨init, b, rfl⟩
    · simp at hlen
    · rw [List.concat_eq_append] at hlen hall ⊢
      have hinit : init.length = m := by simp at hlen; omega
      have hallm : ∀ i, i < m →
          gen_rhythm bpmeasure note_values (streams i)
            = .ok (init.getD i []) := by
        intro i hi
        have h1 := hall i (by omega)
        rw [List.getD_append _ _ _ _ (by omega)] at h1
        exact h1
      have hlast : gen_rhythm bpmeasure note_values (streams m) = .ok b := by
        have h1 := hall m (by omega)
        rw [List.getD_append_right _ _ _ _ (by omega), hinit] at h1
        simpa using h1
      have hb := ih init hinit hallm
      rw [build_notes, hb, hlast]
      simp

lemma table_note_symbol_some {x : Nat} (h : x ∈ [16, 12, 8, 6, 4, 2, 1]) :
    ∃ s, sixteenths_to_lilypond x = some s := by
  fin_cases h <;> exact ⟨_, rfl⟩

lemma table_rest_syms_some {d : Nat} (h : d ∈ [16, 12, 8, 6, 4, 2, 1]) :
    ∃ ss, rest_syms (sixteenths_to_rests d) = some ss := by
  fin_cases h <;> exact ⟨_, rfl⟩

lemma render_tokens_total (rests : List Nat) :
    ∀ (notes : List Nat) (i : Nat),
      (∀ x ∈ notes, x ∈ [16, 12, 8, 6, 4, 2, 1]) →
      ∃ toks, render_tokens rests i notes = some toks := by
  intro notes
  induction notes with
  | nil => exact fun i _ => ⟨[], rfl⟩
  | cons note more ih =>
    intro i h
    obtain ⟨ts, hts⟩ := ih (i + 1) fun x hx => h x (List.mem_cons_of_mem _ hx)
    have hnote := h note (by simp)
    by_cases hi : i ∈ rests
    · obtain ⟨ss, hss⟩ := table_rest_syms_some hnote
      refine ⟨ss ++ ts, ?_⟩
      rw [render_tokens, if_pos hi, hss, hts]
    · obtain ⟨s, hs⟩ := table_note_symbol_some hnote
      refine ⟨["a" ++ s] ++ ts, ?_⟩
      rw [render_tokens, if_neg hi, hs, hts]
      rfl

/-! ### The claims -/

/-- Claim C1, as stated, is false: reachability of the target does not
guarantee an error-free return, because the single-step backtracking can
cycle until the 500-iteration cap even for a reachable target.  Concrete
refutation: target `1 * 4 = 4` is reachable from the palette `[3, 4]`
(take `[4]`), the palette is non-empty and positive, yet the choice
sequence that always picks `3` makes `gen_rhythm` raise the
`ValueError`. -/
theorem c1_counterexample :
    Reachable [3, 4] (1 * 4) ∧ 0 < 1 ∧ ([3, 4] : List Nat) ≠ []
      ∧ (∀ v ∈ ([3, 4] : List Nat), 0 < v)
      ∧ gen_rhythm 1 [3, 4] (fun _ => 0) = .valueError := by
  refine ⟨⟨[4], by decide, by decide⟩, by decide, by decide, by decide, ?_⟩
  set_option maxRecDepth 40000 in decide

/-- Claim C1 (amended): for every target `beats * 4 > 0` reachable from a
non-empty palette of positive values, there is a sequence of random
choices on which `gen_rhythm` returns without error a sequence summing to
the target with every element in the palette; and on every sequence of
random choices on which `gen_rhythm` returns without error, the returned
sequence sums to the target and every element is in the palette.  (As
`c1_counterexample` shows, some choice sequences instead end in the
`ValueError`.) -/
theorem c1_reachable_generation (beats : Nat) (note_values : List Nat)
    (hb : 0 < beats) (hnv : note_values ≠ [])
    (hpos : ∀ v ∈ note_values, 0 < v)
    (hreach : Reachable note_values (beats * 4)) :
    (∃ stream l, gen_rhythm beats note_values stream = .ok l
        ∧ l.sum = beats * 4 ∧ ∀ x ∈ l, x ∈ note_values) ∧
    ∀ stream l, gen_rhythm beats note_values stream = .ok l →
      l.sum = beats * 4 ∧ ∀ x ∈ l, x ∈ note_values := by
  refine ⟨gen_rhythm_exists_ok beats note_values hb hnv hpos hreach, ?_⟩
  intro stream l hl
  rcases gen_rhythm_spec beats note_values stream hnv hpos with
      ⟨l2, hl2, hsum, hmem⟩ | hv
  · rw [hl] at hl2
    injection hl2 with h2
    subst h2
    exact ⟨hsum, hmem hb⟩
  · rw [hl] at hv
    exact GenResult.noConfusion hv

theorem c1_reachable_generation_witness :
    (0 < 1 ∧ ([4] : List Nat) ≠ [] ∧ (∀ v ∈ ([4] : List Nat), 0 < v)
        ∧ Reachable [4] (1 * 4)) ∧
    (∃ stream l, gen_rhythm 1 [4] stream = .ok l
        ∧ l.sum = 1 * 4 ∧ ∀ x ∈ l, x ∈ [4]) ∧
    ∀ stream l, gen_rhythm 1 [4] stream = .ok l →
      l.sum = 1 * 4 ∧ ∀ x ∈ l, x ∈ [4] :=
  ⟨⟨by decide, by decide, by decide, ⟨[4], by decide, by decide⟩⟩,
    c1_reachable_generation 1 [4] (by decide) (by decide) (by decide)
      ⟨[4], by decide, by decide⟩⟩

/-- Claim C2: when no combination of palette elements sums to the target,
`gen_rhythm` raises the `ValueError` (once the outer-loop iteration
counter exceeds the cap of 500, which is how `gen_loop` is defined) on
every possible sequence of random choices — it neither returns a sequence
nor loops forever. -/
theorem c2_unsatisfiable_value_error (beats : Nat) (note_values : List Nat)
    (stream : Nat → Nat) (hnv : note_values ≠ [])
    (hpos : ∀ v ∈ note_values, 0 < v)
    (hunreach : ¬ Reachable note_values (beats * 4)) :
    gen_rhythm beats note_values stream = .valueError := by
  have hb : 0 < beats := by
    rcases Nat.eq_zero_or_pos beats with h | h
    · exact absurd ⟨[], by simp, by simp [h]⟩ hunreach
    · exact h
  rcases gen_rhythm_spec beats note_values stream hnv hpos with
      ⟨l, hl, hsum, hmem⟩ | hv
  · exact absurd ⟨l, hmem hb, hsum⟩ hunreach
  · exact hv

theorem c2_unsatisfiable_value_error_witness :
    ¬ Reachable [3] (1 * 4)
      ∧ gen_rhythm 1 [3] (fun _ => 0) = .valueError :=
  ⟨not_reachable_three_four,
    c2_unsatisfiable_value_error 1 [3] (fun _ => 0) (by decide) (by decide)
      not_reachable_three_four⟩

/-- Claim C3 is the documented intent, but the code crashes instead: with
8 generated positions and `num_rests = 100`, after the 8 positions have
all been marked as rests the loop calls `random.choice` on the
now-empty `non_rests` list, which raises `IndexError` (modelled `none`)
instead of clamping the rest count to the sequence length as the
program's own docstring and help text promise. -/
theorem c3_rest_overflow_index_error :
    add_rests (fun _ => 0) 100 0 (List.range 8) [] = none := by
  set_option maxRecDepth 8000 in decide

/-- Claim C4: for every positive duration, `sixteenths_to_rests` returns
a non-empty sequence of positive durations summing to the input; 12 and 6
map to their table entries and every other duration is returned as the
singleton `[d]`. -/
theorem c4_rest_decomposition (d : Nat) (hd : 0 < d) :
    sixteenths_to_rests d ≠ [] ∧ (∀ x ∈ sixteenths_to_rests d, 0 < x)
      ∧ (sixteenths_to_rests d).sum = d
      ∧ sixteenths_to_rests 12 = [4, 8] ∧ sixteenths_to_rests 6 = [2, 4]
      ∧ (d ≠ 12 → d ≠ 6 → sixteenths_to_rests d = [d]) := by
  by_cases h12 : d = 12
  · subst h12
    exact ⟨by decide, by decide, by decide, by decide, by decide,
      fun h => absurd rfl h⟩
  · by_cases h6 : d = 6
    · subst h6
      exact ⟨by decide, by decide, by decide, by decide, by decide,
        fun _ h => absurd rfl h⟩
    · have he : sixteenths_to_rests d = [d] := by
        simp [sixteenths_to_rests, h12, h6]
      refine ⟨by simp [he], ?_, by simp [he], by decide, by decide,
        fun _ _ => he⟩
      intro x hx
      rw [he] at hx
      simp at hx
      subst hx
      exact hd

theorem c4_rest_decomposition_witness :
    0 < 12 ∧
    (sixteenths_to_rests 12 ≠ [] ∧ (∀ x ∈ sixteenths_to_rests 12, 0 < x)
      ∧ (sixteenths_to_rests 12).sum = 12
      ∧ sixteenths_to_rests 12 = [4, 8] ∧ sixteenths_to_rests 6 = [2, 4]
      ∧ (12 ≠ 12 → 12 ≠ 6 → sixteenths_to_rests 12 = [12])) :=
  ⟨by decide, c4_rest_decomposition 12 (by decide)⟩

/-- Claim C5: `sixteenths_to_lilypond` returns exactly one symbol for the
durations 16, 12, 8, 6, 4, 2, 1 and fails with the key-lookup error
(`none`) for every other duration. -/
theorem c5_note_symbol_table (d : Nat) :
    ((∃ sym, sixteenths_to_lilypond d = some sym)
        ↔ d ∈ [16, 12, 8, 6, 4, 2, 1]) ∧
    (sixteenths_to_lilypond d = none ↔ d ∉ [16, 12, 8, 6, 4, 2, 1]) := by
  unfold sixteenths_to_lilypond
  split_ifs with h16 h12 h8 h6 h4 h2 h1 <;> simp_all

/-- Claim C6: with all rhythm generations succeeding, the concatenated
sequence built by `practice_round` sums to
`measures * (bpmeasure * 4)` sixteenths — i.e. `measures * bpmeasure`
quarter units; for 4 measures of 4 beats that is 64 sixteenths = 16
quarters — and with `num_rests = 0` the rest-selection loop marks no
position as a rest. -/
theorem c6_exercise_total_duration (streams : Nat → Nat → Nat)
    (note_values : List Nat) (measures bpmeasure : Nat) (notes : List Nat)
    (stream2 : Nat → Nat) (k : Nat) (hnv : note_values ≠ [])
    (hpos : ∀ v ∈ note_values, 0 < v)
    (h : build_notes streams note_values bpmeasure measures = some notes) :
    notes.sum = measures * (bpmeasure * 4) ∧
    (measures = 4 → bpmeasure = 4 → notes.sum = 64 ∧ notes.sum / 4 = 16) ∧
    add_rests stream2 0 k (List.range notes.length) [] = some [] := by
  have hsum := build_notes_sum streams note_values bpmeasure hnv hpos
    measures notes h
  refine ⟨hsum, ?_, rfl⟩
  rintro rfl rfl
  rw [hsum]
  exact ⟨rfl, rfl⟩

theorem c6_exercise_total_duration_witness :
    (([16] : List Nat) ≠ [] ∧ (∀ v ∈ ([16] : List Nat), 0 < v)
        ∧ build_notes (fun _ _ => 0) [16] 4 4 = some [16, 16, 16, 16]) ∧
    (([16, 16, 16, 16] : List Nat).sum = 4 * (4 * 4) ∧
      (4 = 4 → 4 = 4 → ([16, 16, 16, 16] : List Nat).sum = 64
        ∧ ([16, 16, 16, 16] : List Nat).sum / 4 = 16) ∧
      add_rests (fun _ => 0) 0 0
        (List.range ([16, 16, 16, 16] : List Nat).length) [] = some []) :=
  ⟨⟨by decide, by decide, by decide⟩,
    c6_exercise_total_duration (fun _ _ => 0) [16] 4 4 [16, 16, 16, 16]
      (fun _ => 0) 0 (by decide) (by decide) (by decide)⟩

/-- Claim C7: the exercise builder succeeds returning `notes` exactly
when there are per-measure rhythms, one per measure, each produced by an
error-free `gen_rhythm` call with target `bpmeasure * 4` sixteenths on
that measure's own choice stream, whose in-order concatenation is
`notes`. -/
theorem c7_per_measure_concatenation (streams : Nat → Nat → Nat)
    (note_values : List Nat) (bpmeasure measures : Nat) (notes : List Nat) :
    build_notes streams note_values bpmeasure measures = some notes ↔
      ∃ ls : List (List Nat), ls.length = measures ∧
        (∀ i, i < measures →
          gen_rhythm bpmeasure note_values (streams i) = .ok (ls.getD i []))
        ∧ notes = ls.join := by
  constructor
  · exact build_notes_forward streams note_values bpmeasure measures notes
  · rintro ⟨ls, hlen, hall, rfl⟩
    exact build_notes_backward streams note_values bpmeasure measures ls
      hlen hall

/-- Claim C8: every duration in the renderable set maps under
`sixteenths_to_rests` to durations that are all keys of the note-symbol
table, hence rendering any sequence drawn from a validated palette — any
positions marked as rests — never hits the key-lookup error. -/
theorem c8_rest_rendering_safe (notes rests : List Nat) (i : Nat)
    (h : ∀ x ∈ notes, x ∈ [16, 12, 8, 6, 4, 2, 1]) :
    (∀ d ∈ [16, 12, 8, 6, 4, 2, 1], ∀ x ∈ sixteenths_to_rests d,
        (sixteenths_to_lilypond x).isSome = true) ∧
    ∃ toks, render_tokens rests i notes = some toks :=
  ⟨by decide, render_tokens_total rests notes i h⟩

theorem c8_rest_rendering_safe_witness :
    (∀ x ∈ ([16, 12] : List Nat), x ∈ [16, 12, 8, 6, 4, 2, 1]) ∧
    ((∀ d ∈ [16, 12, 8, 6, 4, 2, 1], ∀ x ∈ sixteenths_to_rests d,
        (sixteenths_to_lilypond x).isSome = true) ∧
      ∃ toks, render_tokens [0] 0 [16, 12] = some toks) :=
  ⟨by decide, c8_rest_rendering_safe [16, 12] [0] 0 (by decide)⟩

/-- Claim C9: on every palette of positive durations and every possible
sequence of random choices, `gen_rhythm` terminates and either returns a
sequence or raises the `ValueError`: the inner fill loop strictly
increases the running sum at each step (so it is finite) and the outer
loop is bounded by the 500-iteration cap. -/
theorem c9_generator_terminates (beats : Nat) (note_values : List Nat)
    (stream : Nat → Nat) (hnv : note_values ≠ [])
    (hpos : ∀ v ∈ note_values, 0 < v) :
    (∃ l, gen_rhythm beats note_values stream = .ok l)
      ∨ gen_rhythm beats note_values stream = .valueError := by
  rcases gen_rhythm_spec beats note_values stream hnv hpos with
      ⟨l, hl, _, _⟩ | hv
  · exact Or.inl ⟨l, hl⟩
  · exact Or.inr hv

theorem c9_generator_terminates_witness :
    (([3] : List Nat) ≠ [] ∧ (∀ v ∈ ([3] : List Nat), 0 < v)) ∧
    ((∃ l, gen_rhythm 1 [3] (fun _ => 0) = .ok l)
      ∨ gen_rhythm 1 [3] (fun _ => 0) = .valueError) :=
  ⟨⟨by decide, by decide⟩,
    c9_generator_terminates 1 [3] (fun _ => 0) (by decide) (by decide)⟩

/-- Claim C10: with `beats = 0` (target 0) and the default palette,
`gen_rhythm` raises no error and returns `[0]`: the loop guard is false
immediately, the sentinel placeholder is never popped, and the result
sums to 0 but its element 0 is not a palette member. -/
theorem c10_zero_target_sentinel (stream : Nat → Nat) :
    gen_rhythm 0 [16, 12, 8, 6, 4, 2] stream = .ok [0]
      ∧ (0 : Nat) ∉ [16, 12, 8, 6, 4, 2]
      ∧ ([0] : List Nat).sum = 0 :=
  ⟨rfl, by decide, rfl⟩
